import Mathlib

/-!
Verification of `expand_template.py`, a literal placeholder substitution
tool.  The core of the program (lines 15-20 of the source) is:

    result = template
    for r in args.replacements:
        parts = r.split("=")
        if len(parts) == 2:
            k, v = r.split("=")
            result = result.replace("@{" + k + "}", v)

Strings are modelled as `List Char`.  Python's `str.split("=")` is
`splitOnEq`, Python's `str.replace` is `pyReplace`, one iteration of the
loop body is `step`, and the whole loop is `expand`.  `expandS` wraps
`expand` for `String` arguments.  `stepE`/`expandE` embed the loop with
the one fallible operation (the 2-tuple unpacking `k, v = ...`) made
explicit in `Except`, to state that no exception is ever raised.
-/

namespace ExpandTemplate

/-- Python `r.split("=")`: cut the character list at every `'='`.
`"".split("=") == [""]`, `"a=b".split("=") == ["a", "b"]`,
`"==".split("=") == ["", "", ""]`. -/
def splitOnEq : List Char → List (List Char)
  | [] => [[]]
  | c :: cs =>
    if c = '=' then [] :: splitOnEq cs
    else
      match splitOnEq cs with
      | [] => [[c]]
      | hd :: tl => (c :: hd) :: tl

/-- Python `s.replace(old, new)` when `old` is the empty string:
`new` is inserted before every character and at the end
(`"ab".replace("", "X") == "XaXbX"`). -/
def replaceEmptyPat (new : List Char) : List Char → List Char
  | [] => new
  | c :: cs => new ++ c :: replaceEmptyPat new cs

/-- The scanning loop of Python `s.replace(old, new)` for non-empty `old`:
walk the string left to right; whenever `old` starts at the current
position, emit `new` and resume after the matched text (non-overlapping),
otherwise keep the current character.  The `fuel` argument is the number
of characters still allowed to be consumed; it is called with
`fuel = s.length`, which the scan can never exhaust, and makes the
recursion structural. -/
def replaceLoop (old new : List Char) : Nat → List Char → List Char
  | _, [] => []
  | 0, s => s
  | Nat.succ n, c :: cs =>
    if old.isPrefixOf (c :: cs) then
      new ++ replaceLoop old new n (List.drop old.length (c :: cs))
    else
      c :: replaceLoop old new n cs

/-- Python `s.replace(old, new)`. -/
def pyReplace (s old new : List Char) : List Char :=
  match old with
  | [] => replaceEmptyPat new s
  | _ :: _ => replaceLoop old new s.length s

/-- The marker text `"@{" + k + "}"` built in line 20 of the source. -/
def marker (k : List Char) : List Char :=
  '@' :: '{' :: (k ++ ['}'])

/-- One iteration of the loop (lines 17-20): split the raw replacement on
`'='`; when this yields exactly two parts `k` and `v`, replace every
occurrence of `@{k}` in the accumulator with `v`; otherwise leave the
accumulator unchanged.  (`len(parts) == 2` holds exactly when the split
matches the pattern `[k, v]`, so the guard and the unpacking are one
match.) -/
def step (acc r : List Char) : List Char :=
  match splitOnEq r with
  | [k, v] => pyReplace acc (marker k) v
  | _ => acc

/-- The whole loop (lines 15-20): fold `step` over the replacement
entries in input order, starting from the template. -/
def expand (template : List Char) (replacements : List (List Char)) : List Char :=
  replacements.foldl step template

/-- `expand` on `String` arguments. -/
def expandS (template : String) (replacements : List String) : String :=
  String.mk (expand template.data (replacements.map String.data))

/-- One loop iteration with the fallible 2-tuple unpacking
`k, v = r.split("=")` embedded in `Except`: inside the `len(parts) == 2`
guard the unpacking cannot fail, and outside it nothing runs. -/
def stepE (acc r : List Char) : Except String (List Char) :=
  if (splitOnEq r).length = 2 then
    match splitOnEq r with
    | [k, v] => Except.ok (pyReplace acc (marker k) v)
    | _ => Except.error "ValueError: not enough values to unpack"
  else
    Except.ok acc

/-- The whole loop with the fallible unpacking embedded in `Except`: an
exception raised by any iteration would abort the loop. -/
def expandE (template : List Char) : List (List Char) → Except String (List Char)
  | [] => Except.ok template
  | r :: rs =>
    match stepE template r with
    | Except.ok acc => expandE acc rs
    | Except.error e => Except.error e

/-- `occursIn p s` decides whether `p` occurs as a contiguous substring
of `s` (Python `p in s`). -/
def occursIn (p : List Char) : List Char → Bool
  | [] => p.isEmpty
  | c :: cs => p.isPrefixOf (c :: cs) || occursIn p cs

/-- `joinWith sep chunks` glues the chunks together with `sep` between
consecutive chunks (Python `sep.join(chunks)`). -/
def joinWith (sep : List Char) : List (List Char) → List Char
  | [] => []
  | [c] => c
  | c :: c' :: cs => c ++ sep ++ joinWith sep (c' :: cs)

/-- `Greedy old chunks` says the decomposition `joinWith old chunks` picks
out exactly the occurrences of `old` that a left-to-right non-overlapping
scan replaces: before each chosen occurrence no earlier occurrence of
`old` starts (none fits inside the chunk followed by all but the last
character of `old`), and the final chunk contains no occurrence at all. -/
def Greedy (old : List Char) : List (List Char) → Prop
  | [] => True
  | [c] => occursIn old c = false
  | c :: c' :: cs =>
    occursIn old (c ++ old.dropLast) = false ∧ Greedy old (c' :: cs)

/-! ### Helper lemmas -/

theorem isPrefixOf_ex (p s : List Char) :
    p.isPrefixOf s = true ↔ ∃ t, s = p ++ t := by
  induction p generalizing s with
  | nil => simp [List.isPrefixOf]
  | cons a as ih =>
    cases s with
    | nil => simp [List.isPrefixOf]
    | cons b bs =>
      simp only [List.isPrefixOf, Bool.and_eq_true, beq_iff_eq, ih,
        List.cons_append, List.cons.injEq]
      constructor
      · rintro ⟨rfl, t, rfl⟩; exact ⟨t, rfl, rfl⟩
      · rintro ⟨t, rfl, rfl⟩; exact ⟨rfl, t, rfl⟩

theorem drop_length_append (a b : List Char) :
    List.drop a.length (a ++ b) = b := by
  induction a with
  | nil => simp
  | cons c cs ih => simp

theorem isPrefixOf_append_ex (p x z : List Char)
    (h : p.isPrefixOf x = true) : p.isPrefixOf (x ++ z) = true := by
  obtain ⟨t, rfl⟩ := (isPrefixOf_ex p x).mp h
  exact (isPrefixOf_ex p _).mpr ⟨t ++ z, by simp⟩

theorem occursIn_length_le (p s : List Char)
    (h : occursIn p s = true) : p.length ≤ s.length := by
  induction s with
  | nil =>
    simp only [occursIn, List.isEmpty_iff] at h
    simp [h]
  | cons c cs ih =>
    simp only [occursIn, Bool.or_eq_true] at h
    rcases h with h | h
    · obtain ⟨t, ht⟩ := (isPrefixOf_ex p _).mp h
      simp [ht]
    · exact Nat.le_trans (ih h) (by simp)

theorem occursIn_append_mid (p a b : List Char) :
    occursIn p (a ++ p ++ b) = true := by
  induction a with
  | nil =>
    cases hp : p ++ b with
    | nil => simp_all [occursIn, List.isEmpty_iff, List.append_eq_nil]
    | cons c cs =>
      simp only [List.nil_append, hp, occursIn, Bool.or_eq_true]
      exact Or.inl (hp ▸ (isPrefixOf_ex p _).mpr ⟨b, rfl⟩)
  | cons c cs ih =>
    simp only [List.cons_append, occursIn, Bool.or_eq_true]
    exact Or.inr ih

theorem occursIn_nil_left (z : List Char) : occursIn [] z = true := by
  cases z with
  | nil => rfl
  | cons c cs => simp [occursIn, List.isPrefixOf]

theorem occursIn_append_left (p x z : List Char)
    (h : occursIn p x = true) : occursIn p (x ++ z) = true := by
  induction x with
  | nil =>
    simp only [occursIn, List.isEmpty_iff] at h
    subst h
    exact occursIn_nil_left z
  | cons c cs ih =>
    simp only [occursIn, Bool.or_eq_true] at h
    simp only [List.cons_append, occursIn, Bool.or_eq_true]
    rcases h with h | h
    · exact Or.inl (isPrefixOf_append_ex p (c :: cs) z h)
    · exact Or.inr (ih h)

theorem occursIn_append_right (p x z : List Char)
    (h : occursIn p z = true) : occursIn p (x ++ z) = true := by
  induction x with
  | nil => exact h
  | cons c cs ih =>
    simp only [List.cons_append, occursIn, Bool.or_eq_true]
    exact Or.inr ih

/-- A substring occurrence lying inside one of the chunks reappears in
the joined list, whatever the separator. -/
theorem occursIn_joinWith_of_mem (p v : List Char) :
    ∀ (chunks : List (List Char)) (c : List Char), c ∈ chunks →
      occursIn p c = true → occursIn p (joinWith v chunks) = true := by
  intro chunks
  induction chunks with
  | nil => intro c hc; cases hc
  | cons d ds ih =>
    intro c hc h
    cases ds with
    | nil =>
      rcases List.mem_cons.mp hc with rfl | hc'
      · exact h
      · cases hc'
    | cons e es =>
      rcases List.mem_cons.mp hc with rfl | hc'
      · show occursIn p (c ++ v ++ joinWith v (e :: es)) = true
        rw [List.append_assoc]
        exact occursIn_append_left p c _ h
      · show occursIn p (d ++ v ++ joinWith v (e :: es)) = true
        rw [List.append_assoc]
        exact occursIn_append_right p d _
          (occursIn_append_right p v _ (ih c hc' h))

theorem exists_dropLast_append (l : List Char) (h : l ≠ []) :
    ∃ a, l = l.dropLast ++ [a] := by
  induction l with
  | nil => exact absurd rfl h
  | cons c cs ih =>
    cases cs with
    | nil => exact ⟨c, rfl⟩
    | cons c' cs' =>
      obtain ⟨a, ha⟩ := ih (by simp)
      exact ⟨a, by rw [List.dropLast_cons₂, List.cons_append, ← ha]⟩

theorem splitOnEq_ne_nil (r : List Char) : splitOnEq r ≠ [] := by
  induction r with
  | nil => simp [splitOnEq]
  | cons c cs ih =>
    simp only [splitOnEq]
    split
    · simp
    · split
      · simp
      · simp

theorem splitOnEq_length_count (r : List Char) :
    (splitOnEq r).length = r.count '=' + 1 := by
  induction r with
  | nil => simp [splitOnEq]
  | cons c cs ih =>
    simp only [splitOnEq]
    by_cases hc : c = '='
    · subst hc
      simp [List.count_cons, ih]
    · rw [if_neg hc]
      cases hs : splitOnEq cs with
      | nil => exact absurd hs (splitOnEq_ne_nil cs)
      | cons hd tl =>
        have hlen := ih
        rw [hs] at hlen
        have hcnt : (c :: cs).count '=' = cs.count '=' := by
          simp [List.count_cons, hc]
        simp only [List.length_cons] at hlen ⊢
        rw [hcnt]
        omega

theorem splitOnEq_no_eq (v : List Char) (h : '=' ∉ v) :
    splitOnEq v = [v] := by
  induction v with
  | nil => simp [splitOnEq]
  | cons c cs ih =>
    have hc : c ≠ '=' := fun hc => h (hc ▸ List.mem_cons_self c cs)
    have hcs : '=' ∉ cs := fun hm => h (List.mem_cons_of_mem c hm)
    simp only [splitOnEq, if_neg hc, ih hcs]

theorem splitOnEq_key_empty_val (k : List Char) (h : '=' ∉ k) :
    splitOnEq (k ++ ['=']) = [k, []] := by
  induction k with
  | nil => simp [splitOnEq]
  | cons c cs ih =>
    have hc : c ≠ '=' := fun hc => h (hc ▸ List.mem_cons_self c cs)
    have hcs : '=' ∉ cs := fun hm => h (List.mem_cons_of_mem c hm)
    simp only [List.cons_append, splitOnEq, if_neg hc, List.append_eq]
    rw [ih hcs]

theorem stepE_eq_ok (acc r : List Char) :
    stepE acc r = Except.ok (step acc r) := by
  unfold stepE step
  cases h : splitOnEq r with
  | nil => simp
  | cons a t =>
    cases t with
    | nil => simp
    | cons b t' =>
      cases t' with
      | nil => simp
      | cons c t'' => simp

/-- The scan of `replaceLoop` on a non-empty pattern decomposes its input
into chunks separated by the occurrences of the pattern that get
replaced: the input is the chunks joined with the pattern, the output is
the chunks joined with the replacement, no chunk contains the pattern
(every occurrence between the chosen ones is replaced), and the chosen
occurrences are the greedy left-to-right ones. -/
theorem replaceLoop_spec (o : Char) (os new : List Char) :
    ∀ (fuel : Nat) (s : List Char), s.length ≤ fuel →
    ∃ chunks : List (List Char), chunks ≠ [] ∧
      s = joinWith (o :: os) chunks ∧
      replaceLoop (o :: os) new fuel s = joinWith new chunks ∧
      (∀ c ∈ chunks, occursIn (o :: os) c = false) ∧
      Greedy (o :: os) chunks := by
  intro fuel
  induction fuel with
  | zero =>
    intro s hs
    have hnil : s = [] := List.eq_nil_of_length_eq_zero (Nat.le_zero.mp hs)
    subst hnil
    exact ⟨[[]], by simp, rfl, rfl,
      fun c hc => by simp at hc; subst hc; simp [occursIn],
      by simp [Greedy, occursIn]⟩
  | succ n ih =>
    intro s hs
    cases s with
    | nil =>
      exact ⟨[[]], by simp, rfl, rfl,
        fun c hc => by simp at hc; subst hc; simp [occursIn],
        by simp [Greedy, occursIn]⟩
    | cons c cs =>
      have hcs : cs.length ≤ n := by
        simp only [List.length_cons] at hs; omega
      cases hp : (o :: os).isPrefixOf (c :: cs) with
      | true =>
        obtain ⟨t, ht⟩ := (isPrefixOf_ex _ _).mp hp
        have hdrop : List.drop (o :: os).length (c :: cs) = t := by
          rw [ht, drop_length_append]
        have htlen : t.length ≤ n := by
          have hlen := congrArg List.length ht
          simp only [List.length_cons, List.length_append] at hlen
          omega
        obtain ⟨chunks, hne, hjoin, hrepl, hfree, hgreedy⟩ := ih t htlen
        cases chunks with
        | nil => exact absurd rfl hne
        | cons d ds =>
          refine ⟨[] :: d :: ds, by simp, ?_, ?_, ?_, ?_⟩
          · rw [ht, hjoin]; simp [joinWith]
          · simp only [replaceLoop, hp, if_true, hdrop, hrepl]
            simp [joinWith]
          · intro x hx
            rcases List.mem_cons.mp hx with rfl | hx'
            · simp [occursIn]
            · exact hfree x hx'
          · refine ⟨?_, hgreedy⟩
            have hlt : ((o :: os).dropLast).length < (o :: os).length := by
              simp [List.length_dropLast]
            cases hocc : occursIn (o :: os) ([] ++ (o :: os).dropLast) with
            | false => rfl
            | true =>
              have := occursIn_length_le _ _ hocc
              simp only [List.nil_append] at this
              omega
      | false =>
        obtain ⟨chunks, hne, hjoin, hrepl, hfree, hgreedy⟩ := ih cs hcs
        cases chunks with
        | nil => exact absurd rfl hne
        | cons d ds =>
          have hfree_d : occursIn (o :: os) d = false :=
            hfree d (List.mem_cons_self d ds)
          cases ds with
          | nil =>
            have hd : cs = d := hjoin
            have hfree_cd : occursIn (o :: os) (c :: d) = false := by
              simp only [occursIn, Bool.or_eq_false_iff]
              exact ⟨by rw [← hd]; exact hp, hfree_d⟩
            refine ⟨[c :: d], by simp, ?_, ?_, ?_, ?_⟩
            · rw [hd]; rfl
            · simp only [replaceLoop, hp, if_false, Bool.false_eq_true, hrepl]
              rfl
            · intro x hx
              simp only [List.mem_singleton] at hx
              subst hx; exact hfree_cd
            · exact hfree_cd
          | cons e es =>
            have hcs_eq : cs = d ++ (o :: os) ++ joinWith (o :: os) (e :: es) :=
              hjoin
            have hpre_cd : (o :: os).isPrefixOf (c :: d) = false := by
              cases hpcd : (o :: os).isPrefixOf (c :: d) with
              | false => rfl
              | true =>
                have hext : (o :: os).isPrefixOf (c :: cs) = true := by
                  rw [hcs_eq]
                  have : c :: (d ++ (o :: os) ++ joinWith (o :: os) (e :: es)) =
                      (c :: d) ++ ((o :: os) ++ joinWith (o :: os) (e :: es)) := by
                    simp
                  rw [this]
                  exact isPrefixOf_append_ex _ _ _ hpcd
                rw [hext] at hp; cases hp
            have hfree_cd : occursIn (o :: os) (c :: d) = false := by
              simp only [occursIn, Bool.or_eq_false_iff]
              exact ⟨hpre_cd, hfree_d⟩
            refine ⟨(c :: d) :: e :: es, by simp, ?_, ?_, ?_, ?_⟩
            · rw [hcs_eq]; simp [joinWith]
            · simp only [replaceLoop, hp, if_false, Bool.false_eq_true, hrepl]
              simp [joinWith]
            · intro x hx
              rcases List.mem_cons.mp hx with rfl | hx'
              · exact hfree_cd
              · exact hfree x (List.mem_cons_of_mem d hx')
            · refine ⟨?_, hgreedy.2⟩
              have hR : occursIn (o :: os) (d ++ (o :: os).dropLast) = false :=
                hgreedy.1
              have hL : (o :: os).isPrefixOf
                  (c :: (d ++ (o :: os).dropLast)) = false := by
                cases hpcd : (o :: os).isPrefixOf
                    (c :: (d ++ (o :: os).dropLast)) with
                | false => rfl
                | true =>
                  obtain ⟨a, ha⟩ := exists_dropLast_append (o :: os) (by simp)
                  have hmid : ∀ X : List Char,
                      d ++ (o :: os) ++ X =
                        (d ++ (o :: os).dropLast) ++ ([a] ++ X) := by
                    intro X
                    conv_lhs => rw [ha]
                    simp [List.append_assoc]
                  have hsplit : c :: cs =
                      (c :: (d ++ (o :: os).dropLast)) ++
                        ([a] ++ joinWith (o :: os) (e :: es)) := by
                    rw [hcs_eq, hmid (joinWith (o :: os) (e :: es))]
                    simp
                  have hext : (o :: os).isPrefixOf (c :: cs) = true := by
                    rw [hsplit]
                    exact isPrefixOf_append_ex _ _ _ hpcd
                  rw [hext] at hp; cases hp
              simp only [List.cons_append, occursIn, Bool.or_eq_false_iff]
              exact ⟨hL, hR⟩

/-- `pyReplace` on the non-empty pattern `marker k` satisfies the chunk
decomposition of `replaceLoop_spec`. -/
theorem pyReplace_marker_spec (acc k new : List Char) :
    ∃ chunks : List (List Char), chunks ≠ [] ∧
      acc = joinWith (marker k) chunks ∧
      pyReplace acc (marker k) new = joinWith new chunks ∧
      (∀ c ∈ chunks, occursIn (marker k) c = false) ∧
      Greedy (marker k) chunks :=
  replaceLoop_spec '@' ('{' :: (k ++ ['}'])) new acc.length acc
    (Nat.le_refl _)

/-- If the marker does not occur in the accumulator, replacing it is a
no-op. -/
theorem pyReplace_marker_no_occurrence (acc k new : List Char)
    (h : occursIn (marker k) acc = false) :
    pyReplace acc (marker k) new = acc := by
  obtain ⟨chunks, hne, hjoin, hrepl, -, -⟩ := pyReplace_marker_spec acc k new
  cases chunks with
  | nil => exact absurd rfl hne
  | cons d ds =>
    cases ds with
    | nil => rw [hrepl, hjoin]; rfl
    | cons e es =>
      have : occursIn (marker k) acc = true := by
        rw [hjoin]
        show occursIn (marker k) (d ++ marker k ++ joinWith (marker k) (e :: es)) = true
        exact occursIn_append_mid _ _ _
      rw [this] at h; cases h

/-- A well-formed entry makes `step` perform the replacement. -/
theorem step_eq_of_split (acc r k v : List Char)
    (h : splitOnEq r = [k, v]) :
    step acc r = pyReplace acc (marker k) v := by
  simp only [step, h]

/-- A raw entry whose split on `'='` does not yield exactly two parts
leaves the accumulator unchanged. -/
theorem step_eq_self_of_not_two (acc r : List Char)
    (h : (splitOnEq r).length ≠ 2) : step acc r = acc := by
  cases hs : splitOnEq r with
  | nil => simp [step, hs]
  | cons a t =>
    cases t with
    | nil => simp [step, hs]
    | cons b t' =>
      cases t' with
      | nil => rw [hs] at h; simp at h
      | cons c t'' => simp [step, hs]

/-! ### The claims -/

/-- C1: for every well-formed replacement entry `key=value` (whose split
on `'='` yields exactly two parts), the expansion step replaces every
literal occurrence of the substring `"@\x7b" ++ key ++ "\x7d"` in the current
accumulator with the value, as a full, non-overlapping, left-to-right
substring replacement: the accumulator decomposes into marker-free
chunks separated by the greedily chosen occurrences of the marker, and
the step's output is the same chunks separated by the value instead.  In
particular `expand("@\x7bx\x7d-@\x7bx\x7d", ["x=5"]) == "5-5"` and
`expand("Hello @\x7bname\x7d!", ["name=World"]) == "Hello World!"`. -/
theorem claim_C1_step_replaces_every_occurrence
    (acc r k v : List Char) (h : splitOnEq r = [k, v]) :
    (∃ chunks : List (List Char), chunks ≠ [] ∧
      acc = joinWith (marker k) chunks ∧
      step acc r = joinWith v chunks ∧
      (∀ c ∈ chunks, occursIn (marker k) c = false) ∧
      Greedy (marker k) chunks) ∧
    expandS "@{x}-@{x}" ["x=5"] = "5-5" ∧
    expandS "Hello @{name}!" ["name=World"] = "Hello World!" := by
  refine ⟨?_, by decide, by decide⟩
  rw [step_eq_of_split acc r k v h]
  exact pyReplace_marker_spec acc k v

theorem claim_C1_witness :
    (∃ chunks : List (List Char), chunks ≠ [] ∧
      "@{x}-@{x}".data = joinWith (marker "x".data) chunks ∧
      step "@{x}-@{x}".data "x=5".data = joinWith "5".data chunks ∧
      (∀ c ∈ chunks, occursIn (marker "x".data) c = false) ∧
      Greedy (marker "x".data) chunks) ∧
    expandS "@{x}-@{x}" ["x=5"] = "5-5" ∧
    expandS "Hello @{name}!" ["name=World"] = "Hello World!" :=
  claim_C1_step_replaces_every_occurrence
    "@{x}-@{x}".data "x=5".data "x".data "5".data (by decide)

/-- C2: replacements are applied sequentially on the evolving
accumulator, so a marker-like substring introduced by an earlier
replacement's value is eligible for replacement by a later entry:
`expand("@\x7ba\x7d", ["a=@\x7bb\x7d", "b=final"]) == "final"`. -/
theorem claim_C2_sequential_on_evolving_accumulator :
    (∀ (t r : List Char) (rs : List (List Char)),
      expand t (r :: rs) = expand (step t r) rs) ∧
    expandS "@{a}" ["a=@{b}", "b=final"] = "final" :=
  ⟨fun _ _ _ => rfl, by decide⟩

/-- C3: expansion is order-sensitive — the whole expansion is the fold
of the steps in input order, so text introduced by the final step is
never revisited; `expand("@\x7ba\x7d", ["b=final", "a=@\x7bb\x7d"]) == "@\x7bb\x7d"`. -/
theorem claim_C3_order_sensitive :
    (∀ (t : List Char) (rs : List (List Char)) (r : List Char),
      expand t (rs ++ [r]) = step (expand t rs) r) ∧
    expandS "@{a}" ["b=final", "a=@{b}"] = "@{b}" := by
  refine ⟨?_, by decide⟩
  intro t rs r
  simp [expand, List.foldl_append]

/-- C4: an entry whose split on `'='` does not yield exactly two parts
(the split yields one more part than the number of `'='` characters) is
silently skipped: the accumulator is unchanged, no exception is raised,
and processing continues with the remaining entries;
`expand("@\x7bk\x7d", ["no-equals-sign"]) == "@\x7bk\x7d"`. -/
theorem claim_C4_malformed_entry_skipped
    (acc r : List Char) (rs : List (List Char))
    (h : (splitOnEq r).length ≠ 2) :
    (splitOnEq r).length = r.count '=' + 1 ∧
    step acc r = acc ∧
    stepE acc r = Except.ok acc ∧
    expand acc (r :: rs) = expand acc rs ∧
    expandS "@{k}" ["no-equals-sign"] = "@{k}" := by
  refine ⟨splitOnEq_length_count r, step_eq_self_of_not_two acc r h, ?_, ?_,
    by decide⟩
  · simp [stepE, h]
  · show List.foldl step (step acc r) rs = List.foldl step acc rs
    rw [step_eq_self_of_not_two acc r h]

theorem claim_C4_witness :
    (splitOnEq "no-equals-sign".data).length =
      "no-equals-sign".data.count '=' + 1 ∧
    step "@{k}".data "no-equals-sign".data = "@{k}".data ∧
    stepE "@{k}".data "no-equals-sign".data = Except.ok "@{k}".data ∧
    expand "@{k}".data ["no-equals-sign".data] = expand "@{k}".data [] ∧
    expandS "@{k}" ["no-equals-sign"] = "@{k}" :=
  claim_C4_malformed_entry_skipped "@{k}".data "no-equals-sign".data []
    (by decide)

/-- C5: expanding any template with an empty sequence of replacement
entries returns the template unchanged. -/
theorem claim_C5_identity :
    (∀ t : List Char, expand t [] = t) ∧
    (∀ T : String, expandS T [] = T) :=
  ⟨fun _ => rfl, fun _ => rfl⟩

/-- C6 counterexample: in the template `"@\x7b@\x7bx\x7d\x7d"` the marker of key
`"x"` occurs, the single entry `"@\x7bx=v"` parses successfully to the key
`"@\x7bx"` (not `"x"`), yet the output `"v}"` no longer contains the marker
of key `"x"`: an occurrence with no successfully-parsed replacement of
its key did not remain verbatim in the output. -/
theorem claim_C6_counterexample :
    occursIn (marker "x".data) "@\x7b@\x7bx\x7d\x7d".data = true ∧
    splitOnEq "@\x7bx=v".data = ["@\x7bx".data, "v".data] ∧
    "@\x7bx".data ≠ "x".data ∧
    expandS "@\x7b@\x7bx\x7d\x7d" ["@\x7bx=v"] = "v\x7d" ∧
    occursIn (marker "x".data)
      (expandS "@\x7b@\x7bx\x7d\x7d" ["@\x7bx=v"]).data = false :=
  ⟨by decide, by decide, by decide, by decide, by decide⟩

/-- C6 (amended): for a well-formed step, the accumulator decomposes into
the greedily matched marker occurrences and the untouched chunks between
them, and every substring occurrence that lies inside a chunk — i.e.
that no applied replacement's match overlaps, in particular any
occurrence of a different key's marker there — reappears verbatim,
character-for-character, in the step's output; a step whose marker does
not occur in the accumulator at all has no effect; and
`expand("@\x7ba\x7d @\x7bb\x7d", ["a=1"]) == "1 @\x7bb\x7d"` and
`expand("plain text", ["x=1"]) == "plain text"`. -/
theorem claim_C6_amended_no_marker_no_op
    (acc r k v : List Char) (h : splitOnEq r = [k, v]) :
    (∃ chunks : List (List Char), chunks ≠ [] ∧
      acc = joinWith (marker k) chunks ∧
      step acc r = joinWith v chunks ∧
      (∀ c ∈ chunks, occursIn (marker k) c = false) ∧
      Greedy (marker k) chunks ∧
      ∀ p c, c ∈ chunks → occursIn p c = true →
        occursIn p (step acc r) = true) ∧
    (occursIn (marker k) acc = false → step acc r = acc) ∧
    expandS "@{a} @{b}" ["a=1"] = "1 @{b}" ∧
    expandS "plain text" ["x=1"] = "plain text" := by
  refine ⟨?_, ?_, by decide, by decide⟩
  · obtain ⟨chunks, hne, hjoin, hrepl, hfree, hgreedy⟩ :=
      pyReplace_marker_spec acc k v
    rw [step_eq_of_split acc r k v h]
    refine ⟨chunks, hne, hjoin, hrepl, hfree, hgreedy, ?_⟩
    intro p c hc hp
    rw [hrepl]
    exact occursIn_joinWith_of_mem p v chunks c hc hp
  · intro hocc
    rw [step_eq_of_split acc r k v h]
    exact pyReplace_marker_no_occurrence acc k v hocc

theorem claim_C6_witness :
    (∃ chunks : List (List Char), chunks ≠ [] ∧
      "@{a} @{b}".data = joinWith (marker "a".data) chunks ∧
      step "@{a} @{b}".data "a=1".data = joinWith "1".data chunks ∧
      (∀ c ∈ chunks, occursIn (marker "a".data) c = false) ∧
      Greedy (marker "a".data) chunks ∧
      ∀ p c, c ∈ chunks → occursIn p c = true →
        occursIn p (step "@{a} @{b}".data "a=1".data) = true) ∧
    (occursIn (marker "a".data) "@{a} @{b}".data = false →
      step "@{a} @{b}".data "a=1".data = "@{a} @{b}".data) ∧
    expandS "@{a} @{b}" ["a=1"] = "1 @{b}" ∧
    expandS "plain text" ["x=1"] = "plain text" :=
  claim_C6_amended_no_marker_no_op "@{a} @{b}".data "a=1".data
    "a".data "1".data (by decide)

/-- C7: two well-formed entries with the same key are applied in turn on
the accumulator; when the marker no longer occurs after the first, the
second has no effect (the last entry whose marker still matches
determines the surviving text):
`expand("@\x7bx\x7d", ["x=@\x7bx\x7d!", "x=done"]) == "done!"` (the second entry
still matches and wins) and `expand("@\x7bx\x7d-@\x7bx\x7d", ["x=a", "x=b"]) ==
"a-a"` (the first entry consumed every marker, so it determined the
text). -/
theorem claim_C7_duplicate_keys
    (acc r₁ r₂ k v₁ v₂ : List Char)
    (h₁ : splitOnEq r₁ = [k, v₁]) (h₂ : splitOnEq r₂ = [k, v₂]) :
    expand acc [r₁, r₂] =
      pyReplace (pyReplace acc (marker k) v₁) (marker k) v₂ ∧
    (occursIn (marker k) (step acc r₁) = false →
      expand acc [r₁, r₂] = step acc r₁) ∧
    expandS "@{x}" ["x=@{x}!", "x=done"] = "done!" ∧
    expandS "@{x}-@{x}" ["x=a", "x=b"] = "a-a" := by
  refine ⟨?_, ?_, by decide, by decide⟩
  · show step (step acc r₁) r₂ = _
    rw [step_eq_of_split acc r₁ k v₁ h₁, step_eq_of_split _ r₂ k v₂ h₂]
  · intro hocc
    show step (step acc r₁) r₂ = step acc r₁
    rw [step_eq_of_split _ r₂ k v₂ h₂]
    exact pyReplace_marker_no_occurrence _ k v₂ hocc

theorem claim_C7_witness :
    expand "@{x}".data ["x=@{x}!".data, "x=done".data] =
      pyReplace (pyReplace "@{x}".data (marker "x".data) "@{x}!".data)
        (marker "x".data) "done".data ∧
    (occursIn (marker "x".data) (step "@{x}".data "x=@{x}!".data) = false →
      expand "@{x}".data ["x=@{x}!".data, "x=done".data] =
        step "@{x}".data "x=@{x}!".data) ∧
    expandS "@{x}" ["x=@{x}!", "x=done"] = "done!" ∧
    expandS "@{x}-@{x}" ["x=a", "x=b"] = "a-a" :=
  claim_C7_duplicate_keys "@{x}".data "x=@{x}!".data "x=done".data
    "x".data "@{x}!".data "done".data (by decide) (by decide)

/-- C8: for every template and every sequence of raw replacement strings
of any shape, the substitution loop runs to completion and raises no
exception: the `Except`-embedded loop returns `Except.ok` of the pure
result. -/
theorem claim_C8_totality (t : List Char) (rs : List (List Char)) :
    expandE t rs = Except.ok (expand t rs) := by
  induction rs generalizing t with
  | nil => rfl
  | cons r rs ih =>
    show (match stepE t r with
      | Except.ok acc => expandE acc rs
      | Except.error e => Except.error e) = _
    rw [stepE_eq_ok]
    exact ih (step t r)

/-- C9: an entry `key=` with exactly one `'='` and an empty value is
well-formed — its split yields exactly the two parts `key` and `""` —
and every occurrence of `"@\x7bkey\x7d"` in the accumulator is replaced by
the empty string, i.e. deleted: `expand("a@\x7bk\x7db", ["k="]) == "ab"`. -/
theorem claim_C9_empty_value (acc k : List Char) (h : '=' ∉ k) :
    splitOnEq (k ++ ['=']) = [k, []] ∧
    step acc (k ++ ['=']) = pyReplace acc (marker k) [] ∧
    expandS "a@{k}b" ["k="] = "ab" := by
  have hsplit := splitOnEq_key_empty_val k h
  exact ⟨hsplit, step_eq_of_split acc _ k [] hsplit, by decide⟩

theorem claim_C9_witness :
    splitOnEq ("k".data ++ ['=']) = ["k".data, []] ∧
    step "a@{k}b".data ("k".data ++ ['=']) =
      pyReplace "a@{k}b".data (marker "k".data) [] ∧
    expandS "a@{k}b" ["k="] = "ab" :=
  claim_C9_empty_value "a@{k}b".data "k".data (by decide)

/-- C10: an entry `=value` with exactly one `'='` and an empty key is
well-formed — its split yields exactly the two parts `""` and `value` —
and every occurrence of the literal substring `"@\x7b\x7d"` in the
accumulator is replaced by the value: `expand("x@\x7b\x7dy", ["=Z"]) ==
"xZy"`. -/
theorem claim_C10_empty_key (acc v : List Char) (h : '=' ∉ v) :
    splitOnEq ('=' :: v) = [[], v] ∧
    step acc ('=' :: v) = pyReplace acc (marker []) v ∧
    expandS "x@{}y" ["=Z"] = "xZy" := by
  have hsplit : splitOnEq ('=' :: v) = [[], v] := by
    simp [splitOnEq, splitOnEq_no_eq v h]
  exact ⟨hsplit, step_eq_of_split acc _ [] v hsplit, by decide⟩

theorem claim_C10_witness :
    splitOnEq ('=' :: "Z".data) = [[], "Z".data] ∧
    step "x@{}y".data ('=' :: "Z".data) =
      pyReplace "x@{}y".data (marker []) "Z".data ∧
    expandS "x@{}y" ["=Z"] = "xZy" :=
  claim_C10_empty_key "x@{}y".data "Z".data (by decide)

end ExpandTemplate
